import Mathlib

/-!
Verification of the numeric-coverage extraction, grouping and gap-detection
core of pattern-break.py (version 0.4.12).

The Python source is shallowly embedded below.  Strings are Lean strings
(Python strings are sequences of code points, as are Lean strings), Python
ints are Int, Python floats (used only for the approximate-missing-bytes
statistic) are modelled exactly as Rat, and the one potentially
non-terminating loop (the missing-value while loop of build_missing_segment,
which diverges when the increment is not positive) is modelled with fuel,
returning none exactly when the Python loop would not terminate.
-/

namespace PatternBreak

/-- Python int(s) for a non-empty string of decimal digits. -/
def parseDigits (s : String) : Int :=
  Int.ofNat (s.toList.foldl (fun a c => 10 * a + (c.toNat - '0'.toNat)) 0)

/-- Python str.zfill: left-pad with zeros to width w, keeping a leading sign
in front of the inserted zeros. -/
def zfill (w : Nat) (s : String) : String :=
  let cs := s.toList
  if w ≤ cs.length then s
  else
    match cs with
    | [] => String.mk (List.replicate w '0')
    | c :: rest =>
      if c = '-' ∨ c = '+' then
        String.mk (c :: (List.replicate (w - cs.length) '0' ++ rest))
      else
        String.mk (List.replicate (w - cs.length) '0' ++ cs)

/-- Worker for digitRuns: scans the characters, accumulating the current
digit run in reverse. -/
def digitRunsGo : List Char → List Char → List String
  | [], cur => if cur = [] then [] else [String.mk cur.reverse]
  | c :: rest, cur =>
    if c.isDigit then digitRunsGo rest (c :: cur)
    else if cur = [] then digitRunsGo rest []
    else String.mk cur.reverse :: digitRunsGo rest []

/-- Python re.findall of one-or-more-digits over a name: the list of maximal
digit runs, in order of appearance. -/
def digitRuns (s : String) : List String :=
  digitRunsGo s.toList []

/-- Python str.find returning an Option of the first code-point index where
pat occurs in the remaining characters (index counted from i). -/
def findSubAux (pat : List Char) : List Char → Nat → Option Nat
  | [], i => if pat = [] then some i else none
  | c :: rest, i =>
    if pat.isPrefixOf (c :: rest) then some i else findSubAux pat rest (i + 1)

/-- Python nm.find(pat), as an Option instead of the -1 sentinel. -/
def strFindIdx (nm pat : String) : Option Nat :=
  findSubAux pat.toList nm.toList 0

/-- Insert an integer into a strictly ascending list, keeping it strictly
ascending (no duplicate inserted). -/
def insertSortedDedup (x : Int) : List Int → List Int
  | [] => [x]
  | y :: ys =>
    if x < y then x :: y :: ys
    else if x = y then y :: ys
    else y :: insertSortedDedup x ys

/-- Python sorted(set(l)): the distinct values of l in ascending order. -/
def covSort (l : List Int) : List Int :=
  l.foldr insertSortedDedup []

/-- One element of the list returned by Python re.findall: a bare string when
the pattern has fewer than two capture groups, a tuple of group strings
otherwise. -/
inductive MatchRes where
  | str (s : String)
  | tup (gs : List String)
deriving DecidableEq, Repr

/-- An observed named entity handed to the core by the collection layer. -/
structure Item where
  path : String
  name : String
  size : Int
  is_dir : Bool
deriving DecidableEq, Repr

/-- coverage_for_block from pattern-break.py: the coverage set of one seed
value, optionally expanded by every range-pattern match found in the full
name.  The findall of the configured range regex is passed as a function. -/
def coverage_for_block (multiRange : Bool) (findall : String → List MatchRes)
    (fullName : String) (val : Int) : List Int :=
  let base : List Int := [val]
  let withRanges : List Int :=
    if multiRange then
      (findall fullName).foldl
        (fun acc m =>
          match m with
          | MatchRes.tup (a :: b :: _) =>
            let st := parseDigits a
            let ed := parseDigits b
            let lo := min st ed
            let hi := max st ed
            acc ++ (List.range (hi + 1 - lo).toNat).map (fun i => lo + Int.ofNat i)
          | _ => acc)
        base
    else base
  covSort withRanges

/-- parse_coverage_list from pattern-break.py: all numeric blocks of the
name, interpreted under the block policy, each seed expanded by
coverage_for_block. -/
def parse_coverage_list (it : Item) (block_policy : String) (multiRange : Bool)
    (findall : String → List MatchRes) : List (List Int) :=
  let nm := it.name
  let blocks := digitRuns nm
  if blocks = [] then []
  else
    let blocks_i := blocks.map parseDigits
    if block_policy = "first" then
      let v := blocks_i.headD 0
      let c := coverage_for_block multiRange findall nm v
      if c = [] then [] else [c]
    else if block_policy = "largest" then
      let v := blocks_i.foldl max (blocks_i.headD 0)
      let c := coverage_for_block multiRange findall nm v
      if c = [] then [] else [c]
    else if block_policy = "all" then
      blocks_i.filterMap (fun bval =>
        let c := coverage_for_block multiRange findall nm bval
        if c = [] then none else some c)
    else
      blocks_i.filterMap (fun bval =>
        let c := coverage_for_block multiRange findall nm bval
        if c = [] then none else some c)

/-- Fuelled scanner implementing re.findall of the default range pattern
(digits, hyphen, digits, with two capture groups).  The fuel starts at the
length of the character list, which bounds the number of scanning steps, so
the scan is never cut short. -/
def rangeScanF : Nat → List Char → List MatchRes
  | 0, _ => []
  | _, [] => []
  | fuel + 1, c :: rest =>
    if c.isDigit then
      let d1 := c :: rest.takeWhile Char.isDigit
      match rest.dropWhile Char.isDigit with
      | '-' :: c2 :: r2 =>
        if c2.isDigit then
          MatchRes.tup [String.mk d1, String.mk (c2 :: r2.takeWhile Char.isDigit)]
            :: rangeScanF fuel (r2.dropWhile Char.isDigit)
        else rangeScanF fuel (c2 :: r2)
      | after => rangeScanF fuel after
    else rangeScanF fuel rest

/-- re.findall with the default two-group range pattern over the whole
name. -/
def defaultRangeFindall (s : String) : List MatchRes :=
  rangeScanF s.toList.length s.toList

/-- re.findall with a one-group variant of the range pattern (the group on
the first digit run only): same matches as the default pattern, but Python
returns each match as the bare first-group string, not a tuple. -/
def oneGroupRangeFindall (s : String) : List MatchRes :=
  (defaultRangeFindall s).map fun m =>
    match m with
    | MatchRes.tup gs => MatchRes.str (gs.headD "")
    | other => other

/-- A Pick: one item paired with one coverage set it produced. -/
structure Pick where
  item : Item
  coverage : List Int
deriving DecidableEq, Repr

/-- A Group of Picks sharing one naming context. -/
structure Group where
  group_id : String
  directory : Option String
  label : String
  artifact_type : String
  picks : List Pick
deriving DecidableEq, Repr

/-- Strip a trailing digit run from a string (re.sub of trailing digits with
the empty string). -/
def stripTrailingDigits (s : String) : String :=
  String.mk (((s.toList.reverse).dropWhile Char.isDigit).reverse)

/-- compute_group_label_for_picks from pattern-break.py: the prefix of the
first pick whose representative value can be located in its name, with any
trailing digits removed; a sentinel otherwise. -/
def compute_group_label_for_picks : List Pick → String
  | [] => "<no-numeric>"
  | p :: rest =>
    match p.coverage with
    | [] => compute_group_label_for_picks rest
    | val :: _ =>
      let nm := p.item.name
      let zval := zfill (toString val).length (toString val)
      let idxO : Option Nat :=
        match strFindIdx nm zval with
        | some i => some i
        | none => strFindIdx nm (toString val)
      match idxO with
      | none => "<no-numeric>"
      | some idx =>
        let pre := stripTrailingDigits (String.mk (nm.toList.take idx))
        if pre = "" then "<no-numeric>" else pre

/-- Representative value of a pick: the first element of its coverage list
(coverage lists produced by parse_coverage_list are never empty, so the
default is never read on pipeline-produced picks). -/
def repOf (p : Pick) : Int :=
  p.coverage.headD 0

/-- Strict comparison of the Python sort keys (coverage first element, then
name). -/
def pickLT (a b : Pick) : Bool :=
  repOf a < repOf b ∨ (repOf a = repOf b ∧ a.item.name < b.item.name)

/-- Stable insertion of a pick into a sorted list: the new pick goes after
every element with a strictly smaller key and before the rest, as Python
list.sort (a stable sort) orders elements drawn in input order. -/
def insertPick (p : Pick) : List Pick → List Pick
  | [] => [p]
  | q :: qs => if pickLT q p then q :: insertPick p qs else p :: q :: qs

/-- The stable sort of picks by (representative value, name), as performed
by list.sort with that key in group_items. -/
def sortPicks (picks : List Pick) : List Pick :=
  picks.foldr insertPick []

/-- Group constructor used by the subgroup loop. -/
def mkDirGroup (dkey : String) (idx : Nat) (citems : List Pick)
    (artifact_type : String) : Group :=
  ⟨dkey ++ "__group" ++ toString idx, some dkey,
   compute_group_label_for_picks citems, artifact_type, citems⟩

/-- The accumulator loop of build_subgroups_in_dir: citems is the current
run (non-empty), lastv the representative value of its last pick. -/
def subgroupsLoop (dkey artifact_type : String) (threshold : Int) :
    Nat → List Pick → Int → List Pick → List Group
  | idx, citems, _, [] => [mkDirGroup dkey idx citems artifact_type]
  | idx, citems, lastv, p :: ps =>
    let mv := repOf p
    if mv - lastv > threshold then
      mkDirGroup dkey idx citems artifact_type
        :: subgroupsLoop dkey artifact_type threshold (idx + 1) [p] mv ps
    else
      subgroupsLoop dkey artifact_type threshold idx (citems ++ [p]) mv ps

/-- build_subgroups_in_dir from pattern-break.py.  A missing threshold, and a
threshold of 0 (falsy in Python), yield a single group. -/
def build_subgroups_in_dir (dkey : String) (picks : List Pick)
    (threshold : Option Int) (artifact_type : String) : List Group :=
  if threshold.getD 0 = 0 then
    [⟨dkey ++ "__group0", some dkey, compute_group_label_for_picks picks,
      artifact_type, picks⟩]
  else
    match picks with
    | [] => []
    | p :: ps =>
      subgroupsLoop dkey artifact_type (threshold.getD 0) 0 [p] (repOf p) ps

/-- The per-directory branch of group_items for one directory: filter the
items, expand each into picks via the extractor, sort, and split into
subgroups.  The name filter (regex and substring) is abstracted as a
predicate. -/
def group_items_dir (dkey : String) (items : List Item) (filt : Item → Bool)
    (block_policy : String) (multiRange : Bool)
    (findall : String → List MatchRes) (threshold : Option Int)
    (artifact_type : String) : List Group :=
  let picks := (items.filter filt).flatMap fun it =>
    (parse_coverage_list it block_policy multiRange findall).map
      fun c => Pick.mk it c
  if picks = [] then []
  else build_subgroups_in_dir dkey (sortPicks picks) threshold artifact_type

/-- compute_group_label_for_flat from pattern-break.py (same logic as the
per-directory label over (directory, item, coverage) triples). -/
def compute_group_label_for_flat : List (String × Item × List Int) → String
  | [] => "<no-numeric>"
  | (_, it, cov) :: rest =>
    match cov with
    | [] => compute_group_label_for_flat rest
    | val :: _ =>
      let nm := it.name
      let zval := zfill (toString val).length (toString val)
      let idxO : Option Nat :=
        match strFindIdx nm zval with
        | some i => some i
        | none => strFindIdx nm (toString val)
      match idxO with
      | none => "<no-numeric>"
      | some idx =>
        let pre := stripTrailingDigits (String.mk (nm.toList.take idx))
        if pre = "" then "<no-numeric>" else pre

/-- Cross-directory group constructor. -/
def mkFlatGroup (idx : Nat) (citems : List (String × Item × List Int))
    (artifact_type : String) : Group :=
  ⟨"crossdir_" ++ toString idx, none, compute_group_label_for_flat citems,
   artifact_type, citems.map fun xx => Pick.mk xx.2.1 xx.2.2⟩

/-- The accumulator loop of build_groups_from_flat.  The split test carries
the Python truthiness of the threshold. -/
def flatLoop (artifact_type : String) (threshold : Int) :
    Nat → List (String × Item × List Int) → Int →
    List (String × Item × List Int) → List Group
  | idx, citems, _, [] => [mkFlatGroup idx citems artifact_type]
  | idx, citems, lastv, x :: xs =>
    let mv := x.2.2.headD 0
    if threshold ≠ 0 ∧ mv - lastv > threshold then
      mkFlatGroup idx citems artifact_type
        :: flatLoop artifact_type threshold (idx + 1) [x] mv xs
    else
      flatLoop artifact_type threshold idx (citems ++ [x]) mv xs

/-- Strict comparison for the cross-directory sort key (coverage first
element, then item name). -/
def flatLT (a b : String × Item × List Int) : Bool :=
  a.2.2.headD 0 < b.2.2.headD 0 ∨
    (a.2.2.headD 0 = b.2.2.headD 0 ∧ a.2.1.name < b.2.1.name)

/-- Stable insertion of a triple into a sorted pool. -/
def insertFlat (x : String × Item × List Int) :
    List (String × Item × List Int) → List (String × Item × List Int)
  | [] => [x]
  | y :: ys => if flatLT y x then y :: insertFlat x ys else x :: y :: ys

/-- The stable sort of the pooled triples by (representative value, name). -/
def sortFlat (flat : List (String × Item × List Int)) :
    List (String × Item × List Int) :=
  flat.foldr insertFlat []

/-- build_groups_from_flat from pattern-break.py: sort the pooled
(directory, item, coverage) triples and split them into cross-directory
groups. -/
def build_groups_from_flat (flat : List (String × Item × List Int))
    (threshold : Option Int) (artifact_type : String) : List Group :=
  match sortFlat flat with
  | [] => []
  | x :: xs =>
    flatLoop artifact_type (threshold.getD 0) 0 [x] (x.2.2.headD 0) xs

/-- One absent numeric identifier within a segment. -/
structure MissingItem where
  val : Int
  padded : String
  pfx : String
  sfx : String
  reason : String
deriving DecidableEq, Repr

/-- A maximal missing-value run within one group. -/
structure Segment where
  start_val : Int
  end_val : Int
  count : Nat
  boundary_type : String
  missing_items : List MissingItem
deriving DecidableEq, Repr

/-- Aggregate statistics for one group result.  The approximate byte count
is a Python float (mean size times missing count); it is modelled exactly
as a rational. -/
structure Stats where
  num_missing : Nat
  num_real : Nat
  num_segments : Nat
  approx_missing_bytes : Rat
deriving DecidableEq, Repr

/-- The result of detect_breaks_in_group for one group. -/
structure BreakResult where
  group_info : Group
  segments : List Segment
  stats : Stats
deriving DecidableEq, Repr

/-- One entry of the real_cov_items list built by detect_breaks_in_group:
a real observed value with the decorations inferred from its item. -/
structure RealCov where
  val : Int
  pfx : String
  sfx : String
  is_dir : Bool
  size : Int
deriving DecidableEq, Repr

/-- guess_prefix_suffix from pattern-break.py: locate the string form of the
representative value inside the name and split around it; the zfill to its
own length is the identity, so both lookups search the same string. -/
def guess_prefix_suffix (it : Item) (example_val : Int) : String × String :=
  let nm := it.name
  let zstr := zfill (toString example_val).length (toString example_val)
  match strFindIdx nm zstr with
  | some idx =>
    (String.mk (nm.toList.take idx),
     String.mk (nm.toList.drop (idx + zstr.toList.length)))
  | none =>
    match strFindIdx nm (toString example_val) with
    | some idx2 =>
      (String.mk (nm.toList.take idx2),
       String.mk (nm.toList.drop (idx2 + (toString example_val).toList.length)))
    | none => ("???_", ".xxx")

/-- The real_cov_items list of detect_breaks_in_group: one entry per value of
each coverage list, in pick order, decorated from that pick. -/
def realCovItems (picks : List Pick) : List RealCov :=
  picks.flatMap fun p =>
    let ps := guess_prefix_suffix p.item (p.coverage.headD 0)
    p.coverage.map fun v => ⟨v, ps.1, ps.2, p.item.is_dir, p.item.size⟩

/-- The accumulator loop of find_closest_prefix_suffix: the running best is
an entry together with its distance (none while no entry has been seen,
standing for the infinite initial distance). -/
def fcLoop (val : Int) : List RealCov → Option (RealCov × Nat) → Option (RealCov × Nat)
  | [], best => best
  | rc :: rest, best =>
    let d := (rc.val - val).natAbs
    match best with
    | none => fcLoop val rest (some (rc, d))
    | some (b, bd) =>
      if d < bd then fcLoop val rest (some (rc, d))
      else fcLoop val rest (some (b, bd))

/-- find_closest_prefix_suffix from pattern-break.py. -/
def find_closest_prefix_suffix (val : Int) (real_cov : List RealCov) :
    String × String :=
  match fcLoop val real_cov none with
  | some (b, _) => (b.pfx, b.sfx)
  | none => ("???_", ".xxx")

/-- The while loop of build_missing_segment, with fuel.  One unit of fuel is
spent per produced item, so fuel (ed + 1 - v).toNat is enough whenever the
increment is at least 1; the loop answers none exactly when the fuel runs
out with v still within the bound, which is when the Python loop (stepping
by a non-positive increment) would not terminate. -/
def missLoop (padLen : Nat) (reasonStr : String) (inc ed : Int) :
    Nat → Int → Option (List MissingItem)
  | 0, v => if v ≤ ed then none else some []
  | fuel + 1, v =>
    if v ≤ ed then
      (missLoop padLen reasonStr inc ed fuel (v + inc)).map fun rest =>
        ⟨v, zfill padLen (toString v), "", "", reasonStr⟩ :: rest
    else some []

/-- build_missing_segment from pattern-break.py.  Items are padded to the
width of the string form of the segment end; prefixes and suffixes are
filled in later by the caller. -/
def build_missing_segment (st ed : Int) (btype : String) (explain : Bool)
    (mod_boundary : Option Int) (inc : Int) : Option Segment :=
  if ed < st then some ⟨st, ed, 0, btype, []⟩
  else
    let padLen := (toString ed).toList.length
    let reasonStr :=
      if explain && (btype = "leading" || btype = "trailing")
          && mod_boundary.getD 0 ≠ 0 then
        btype ++ " (possible boundary)"
      else btype
    (missLoop padLen reasonStr inc ed (ed + 1 - st).toNat st).map fun items =>
      ⟨st, ed, items.length, btype, items⟩

/-- The internal-segment loop of detect_breaks_in_group over each adjacent
pair of the sorted observed values. -/
def internalSegs (explain : Bool) (mod_boundary : Option Int) (inc : Int) :
    List Int → Option (List Segment)
  | c :: n :: rest => do
    let tail ← internalSegs explain mod_boundary inc (n :: rest)
    if n - c > inc then
      let seg ← build_missing_segment (c + inc) (n - 1) "internal" explain
        mod_boundary inc
      pure (if 0 < seg.count then seg :: tail else tail)
    else
      pure tail
  | _ => some []

/-- The sequence-start computation of detect_breaks_in_group (its first
let block): the explicit start when given, else the actual minimum, snapped
down to a multiple of the modulus boundary when that is set and non-zero
(Python truthiness). -/
def seqStartOf (start_num mod_boundary : Option Int) (actual_min : Int) : Int :=
  match start_num with
  | some s => s
  | none =>
    match mod_boundary with
    | some m => if m ≠ 0 then (Int.fdiv actual_min m) * m else actual_min
    | none => actual_min

/-- The sequence-end computation of detect_breaks_in_group (its second let
block): the explicit end when given, else the actual maximum, snapped up to
one below the next multiple of the modulus boundary when that is set and
non-zero. -/
def seqEndOf (end_num mod_boundary : Option Int) (actual_max : Int) : Int :=
  match end_num with
  | some e => e
  | none =>
    match mod_boundary with
    | some m => if m ≠ 0 then (Int.fdiv actual_max m + 1) * m - 1 else actual_max
    | none => actual_max

/-- The prefix-filling pass of detect_breaks_in_group: every missing item of
a segment receives the prefix and suffix of the nearest real coverage
entry. -/
def fillSeg (rci : List RealCov) (seg : Segment) : Segment :=
  { seg with missing_items := seg.missing_items.map fun mi =>
      let near := find_closest_prefix_suffix mi.val rci
      { mi with pfx := near.1, sfx := near.2 } }

/-- detect_breaks_in_group from pattern-break.py.  The result is none
exactly when the missing-value loop would not terminate (non-positive
increment with a non-empty run to emit). -/
def detect_breaks_in_group (group : Group) (start_num end_num mod_boundary : Option Int)
    (increment : Int) (explain : Bool) : Option BreakResult :=
  let picks := group.picks
  if picks = [] then
    some ⟨group, [], ⟨0, 0, 0, 0⟩⟩
  else
    let total_size : Int :=
      if group.artifact_type = "files" then (picks.map fun p => p.item.size).sum else 0
    let real_count : Nat :=
      if group.artifact_type = "files" then picks.length else 0
    let rci := realCovItems picks
    let sorted_ints := covSort (picks.flatMap Pick.coverage)
    if sorted_ints = [] then
      some ⟨group, [], ⟨0, 0, 0, 0⟩⟩
    else
      let actual_min := sorted_ints.headD 0
      let actual_max := sorted_ints.getLastD 0
      let seq_start := seqStartOf start_num mod_boundary actual_min
      let seq_end := seqEndOf end_num mod_boundary actual_max
      (if seq_start < actual_min then
          (build_missing_segment seq_start (actual_min - increment) "leading"
            explain mod_boundary increment).map
            (fun seg => if 0 < seg.count then [seg] else [])
        else some []).bind fun lead =>
      (internalSegs explain mod_boundary increment sorted_ints).bind fun internal =>
      (if seq_end > actual_max then
          (build_missing_segment (actual_max + increment) seq_end "trailing"
            explain mod_boundary increment).map
            (fun seg => if 0 < seg.count then [seg] else [])
        else some []).bind fun trail =>
        let segs0 := lead ++ internal ++ trail
        let total_missing := (segs0.map Segment.count).sum
        let approx : Rat :=
          if group.artifact_type = "files" ∧ 0 < real_count then
            ((total_size : Rat) / (real_count : Rat)) * (total_missing : Rat)
          else 0
        let segs := segs0.map (fillSeg rci)
        some ⟨group, segs,
          ⟨total_missing,
           (if group.artifact_type = "files" then real_count else sorted_ints.length),
           segs.length, approx⟩⟩

/-! Specification-side definitions, written from the wording of the claims,
to be compared with the source embedding above. -/

/-- Projection of a segment to its observable run: start, end, boundary
kind. -/
def segProj (s : Segment) : Int × Int × String :=
  (s.start_val, s.end_val, s.boundary_type)

/-- Expected-range start per the claim wording: the explicit start if given,
else the actual minimum rounded down to the nearest multiple of the modulus
boundary. -/
def specStart (start_num mod_boundary : Option Int) (actualMin : Int) : Int :=
  match start_num with
  | some s => s
  | none =>
    match mod_boundary with
    | some m => (Int.fdiv actualMin m) * m
    | none => actualMin

/-- Expected-range end per the claim wording: the explicit end if given,
else the actual maximum rounded up to one less than the next multiple of
the modulus boundary. -/
def specEnd (end_num mod_boundary : Option Int) (actualMax : Int) : Int :=
  match end_num with
  | some e => e
  | none =>
    match mod_boundary with
    | some m => (Int.fdiv actualMax m + 1) * m - 1
    | none => actualMax

/-- The internal missing runs per the claim wording: one run
[cur + increment, next - 1] for every adjacent observed pair with
next - cur > increment, discarding runs whose end is below their start. -/
def internalRunsSpec (inc : Int) : List Int → List (Int × Int × String)
  | c :: n :: rest =>
    (if n - c > inc ∧ c + inc ≤ n - 1 then [(c + inc, n - 1, "internal")] else [])
      ++ internalRunsSpec inc (n :: rest)
  | _ => []

/-- All missing runs per the claim wording: a leading run when the expected
start is below the actual minimum, the internal runs, and a trailing run
when the expected end is above the actual maximum, each discarded when its
end is below its start. -/
def runsSpec (s e inc : Int) (obs : List Int) : List (Int × Int × String) :=
  let aMin := obs.headD 0
  let aMax := obs.getLastD 0
  (if s < aMin ∧ s ≤ aMin - inc then [(s, aMin - inc, "leading")] else [])
    ++ internalRunsSpec inc obs
    ++ (if e > aMax ∧ aMax + inc ≤ e then [(aMax + inc, e, "trailing")] else [])

/-- Absolute numeric distance from a real coverage entry to a value. -/
def diffTo (val : Int) (rc : RealCov) : Nat :=
  (rc.val - val).natAbs

/-- The entry of the non-empty list a :: l at minimum absolute distance
from val, the earliest such entry on ties, with its distance. -/
def leftArgminNE (val : Int) (a : RealCov) : List RealCov → RealCov × Nat
  | [] => (a, diffTo val a)
  | rc :: rest =>
    let best := leftArgminNE val rc rest
    if diffTo val a ≤ best.2 then (a, diffTo val a) else best

/-- The entry of the list at minimum absolute distance from val, the
earliest such entry on ties, together with its distance: the selection
described by the claim wording for prefix/suffix reconstruction. -/
def leftArgmin (val : Int) : List RealCov → Option (RealCov × Nat)
  | [] => none
  | rc :: rest => some (leftArgminNE val rc rest)

/-- The runs of consecutive picks described by the claim wording for
threshold splitting: a new run starts exactly where the gap between
successive representative values exceeds the threshold. -/
def specRuns (t : Int) : List Pick → List (List Pick)
  | [] => []
  | [p] => [[p]]
  | p :: q :: rest =>
    if repOf q - repOf p > t then
      [p] :: specRuns t (q :: rest)
    else
      match specRuns t (q :: rest) with
      | [] => [[p]]
      | g :: gs => (p :: g) :: gs

/-- Worker relating the subgroup loop to specRuns: the part of the list
glued onto a current run whose last representative value is v, and the runs
that follow. -/
def splitFrom (t v : Int) : List Pick → List Pick × List (List Pick)
  | [] => ([], [])
  | p :: ps =>
    if repOf p - v > t then ([], specRuns t (p :: ps))
    else
      let x := splitFrom t (repOf p) ps
      (p :: x.1, x.2)

/-- Per-segment well-formedness carried through gap detection: the count is
the number of missing items and every item is zero-padded to the width of
the string form of the segment end. -/
def SegOk (seg : Segment) : Prop :=
  seg.count = seg.missing_items.length ∧
  ∀ mi ∈ seg.missing_items,
    mi.padded = zfill (toString seg.end_val).toList.length (toString mi.val)

/-! Concrete inputs used by the scenario parts of the claims. -/

/-- A file item with a given name. -/
def mkFileItem (nm : String) : Item :=
  ⟨"", nm, 0, false⟩

/-- A pick of a file item with a singleton coverage value. -/
def mkPick (nm : String) (v : Int) : Pick :=
  ⟨mkFileItem nm, [v]⟩

/-- The boundary-scenario group: observed values 105 and 110. -/
def gBoundary : Group :=
  ⟨"d__group0", some "d", "a", "files", [mkPick "a105" 105, mkPick "a110" 110]⟩

/-- The reconstruction-scenario group: img_001.png, img_002.png,
img_005.png under the first block policy. -/
def gImg : Group :=
  ⟨"d__group0", some "d", "img_", "files",
   [mkPick "img_001.png" 1, mkPick "img_002.png" 2, mkPick "img_005.png" 5]⟩

/-- A contiguous run of observed values 1 to 10. -/
def gRun : Group :=
  ⟨"d__group0", some "d", "f", "files",
   (List.range 10).map fun i => mkPick ("f" ++ toString (i + 1)) (i + 1)⟩

/-- A group with exactly one observed value. -/
def gOne : Group :=
  ⟨"d__group0", some "d", "f", "files", [mkPick "f7" 7]⟩

/-- The split-scenario picks, representative values 1, 2, 50, 51. -/
def splitPicks : List Pick :=
  [mkPick "f1" 1, mkPick "f2" 2, mkPick "f50" 50, mkPick "f51" 51]

/-- The multi-range scenario item. -/
def archiveItem : Item :=
  mkFileItem "archive_100-103.zip"

/-- Whether a findall result carries at least two captured groups (the only
shape coverage_for_block ever uses). -/
def isTupGe2 : MatchRes → Bool
  | MatchRes.tup (_ :: _ :: _) => true
  | _ => false

/-- The value chosen by the largest block policy: the maximum of the parsed
digit runs of the item name (Python max over a non-empty list). -/
def maxBlockOf (it : Item) : Int :=
  let bs := (digitRuns it.name).map parseDigits
  bs.foldl max (bs.headD 0)

/-! Helper lemmas. -/

theorem mem_insertSortedDedup (a x : Int) :
    ∀ l : List Int, a ∈ insertSortedDedup x l ↔ a = x ∨ a ∈ l := by
  intro l
  induction l with
  | nil => simp [insertSortedDedup]
  | cons y ys ih =>
    by_cases hlt : x < y
    · simp [insertSortedDedup, hlt]
    · by_cases heq : x = y
      · subst heq
        have hx : insertSortedDedup x (x :: ys) = x :: ys := by
          simp [insertSortedDedup, hlt]
        rw [hx, List.mem_cons]
        tauto
      · simp only [insertSortedDedup, if_neg hlt, if_neg heq, List.mem_cons, ih]
        tauto

theorem mem_covSort (a : Int) : ∀ l : List Int, a ∈ covSort l ↔ a ∈ l := by
  intro l
  induction l with
  | nil => simp [covSort]
  | cons x xs ih =>
    simp only [covSort, List.foldr_cons] at *
    rw [mem_insertSortedDedup, ih, List.mem_cons]

theorem missLoop_isSome (padLen : Nat) (reasonStr : String) (inc ed : Int)
    (hinc : 1 ≤ inc) :
    ∀ (fuel : Nat) (v : Int), (ed + 1 - v).toNat ≤ fuel →
      (missLoop padLen reasonStr inc ed fuel v).isSome := by
  intro fuel
  induction fuel with
  | zero =>
    intro v hv
    have : ¬ v ≤ ed := by omega
    simp [missLoop, this]
  | succ fuel ih =>
    intro v hv
    by_cases hle : v ≤ ed
    · have hrec := ih (v + inc) (by omega)
      rcases Option.isSome_iff_exists.mp hrec with ⟨items, hitems⟩
      simp [missLoop, hle, hitems]
    · simp [missLoop, hle]

theorem missLoop_items (padLen : Nat) (reasonStr : String) (inc ed : Int) :
    ∀ (fuel : Nat) (v : Int) (items : List MissingItem),
      missLoop padLen reasonStr inc ed fuel v = some items →
      (∀ mi ∈ items, mi.padded = zfill padLen (toString mi.val) ∧
        mi.pfx = "" ∧ mi.sfx = "" ∧ mi.reason = reasonStr) ∧
      (items = [] ↔ ¬ v ≤ ed) := by
  intro fuel
  induction fuel with
  | zero =>
    intro v items h
    by_cases hle : v ≤ ed
    · simp [missLoop, hle] at h
    · simp [missLoop, hle] at h
      subst h
      simp [hle]
  | succ fuel ih =>
    intro v items h
    by_cases hle : v ≤ ed
    · simp only [missLoop, if_pos hle, Option.map_eq_some'] at h
      obtain ⟨rest, hrest, hcons⟩ := h
      obtain ⟨hprops, _⟩ := ih (v + inc) rest hrest
      subst hcons
      refine ⟨?_, by simp [hle]⟩
      intro mi hmi
      rcases List.mem_cons.mp hmi with h1 | h2
      · subst h1; exact ⟨rfl, rfl, rfl, rfl⟩
      · exact hprops mi h2
    · simp only [missLoop, if_neg hle] at h
      rw [Option.some_inj] at h
      subst h
      simp [hle]

theorem missLoop_length (padLen : Nat) (reasonStr : String) (inc ed : Int)
    (hinc : 1 ≤ inc) :
    ∀ (fuel : Nat) (v : Int) (items : List MissingItem),
      missLoop padLen reasonStr inc ed fuel v = some items →
      items.length ≤ (ed + 1 - v).toNat := by
  intro fuel
  induction fuel with
  | zero =>
    intro v items h
    by_cases hle : v ≤ ed
    · simp [missLoop, hle] at h
    · simp [missLoop, hle] at h
      subst h
      simp
  | succ fuel ih =>
    intro v items h
    by_cases hle : v ≤ ed
    · simp only [missLoop, if_pos hle, Option.map_eq_some'] at h
      obtain ⟨rest, hrest, hcons⟩ := h
      have hlen := ih (v + inc) rest hrest
      subst hcons
      simp only [List.length_cons]
      omega
    · simp only [missLoop, if_neg hle] at h
      rw [Option.some_inj] at h
      subst h
      simp

theorem build_missing_segment_spec (st ed : Int) (bt : String) (ex : Bool)
    (mb : Option Int) (inc : Int) (hinc : 1 ≤ inc) :
    ∃ seg, build_missing_segment st ed bt ex mb inc = some seg ∧
      seg.start_val = st ∧ seg.end_val = ed ∧ seg.boundary_type = bt ∧
      (0 < seg.count ↔ st ≤ ed) ∧ SegOk seg ∧
      seg.missing_items.length ≤ (ed + 1 - st).toNat := by
  by_cases hed : ed < st
  · refine ⟨⟨st, ed, 0, bt, []⟩, by simp [build_missing_segment, hed], rfl, rfl, rfl,
      by simp; omega, ?_, by simp⟩
    constructor
    · rfl
    · intro mi hmi
      simp at hmi
  · have hsome := missLoop_isSome (toString ed).toList.length
      (if ex && (bt = "leading" || bt = "trailing") && mb.getD 0 ≠ 0 then
        bt ++ " (possible boundary)" else bt) inc ed hinc
      (ed + 1 - st).toNat st (le_refl _)
    rcases Option.isSome_iff_exists.mp hsome with ⟨items, hitems⟩
    obtain ⟨hprops, hemp⟩ := missLoop_items _ _ _ _ _ _ _ hitems
    have hlen := missLoop_length _ _ _ _ hinc _ _ _ hitems
    refine ⟨⟨st, ed, items.length, bt, items⟩, ?_, rfl, rfl, rfl, ?_, ?_, hlen⟩
    · simp only [build_missing_segment, if_neg hed]
      rw [hitems]
      rfl
    · simp only
      rw [List.length_pos]
      constructor
      · intro hne
        by_contra hcon
        exact hne (hemp.mpr hcon)
      · intro hle hnil
        exact (hemp.mp hnil) hle
    · constructor
      · rfl
      · intro mi hmi
        exact (hprops mi hmi).1

theorem internalSegs_spec (ex : Bool) (mb : Option Int) (inc : Int)
    (hinc : 1 ≤ inc) :
    ∀ l : List Int, ∃ segs, internalSegs ex mb inc l = some segs ∧
      segs.map segProj = internalRunsSpec inc l ∧
      ∀ sg ∈ segs, SegOk sg := by
  intro l
  induction l with
  | nil => exact ⟨[], rfl, rfl, by simp⟩
  | cons c tl ih =>
    cases tl with
    | nil => exact ⟨[], rfl, rfl, by simp⟩
    | cons n rest =>
      obtain ⟨tail, htail, hproj, hok⟩ := ih
      by_cases hgap : n - c > inc
      · obtain ⟨seg, hsegeq, h1, h2, h3, hiff, hsok, _⟩ :=
          build_missing_segment_spec (c + inc) (n - 1) "internal" ex mb inc hinc
        by_cases hcnt : 0 < seg.count
        · refine ⟨seg :: tail, ?_, ?_, ?_⟩
          · simp [internalSegs, htail, hgap, hsegeq, hcnt]
          · have hle : c + inc ≤ n - 1 := hiff.mp hcnt
            simp [internalRunsSpec, hgap, hle, segProj, h1, h2, h3, hproj]
          · intro sg hsg
            rcases List.mem_cons.mp hsg with h | h
            · subst h; exact hsok
            · exact hok sg h
        · refine ⟨tail, ?_, ?_, hok⟩
          · simp [internalSegs, htail, hgap, hsegeq, hcnt]
          · have hle : ¬ c + inc ≤ n - 1 := fun h => hcnt (hiff.mpr h)
            simp [internalRunsSpec, hgap, hle, hproj]
      · refine ⟨tail, ?_, ?_, hok⟩
        · simp [internalSegs, htail, hgap]
        · simp [internalRunsSpec, hgap, hproj]

theorem guardSeg_spec (c : Prop) [Decidable c] (st ed : Int) (bt : String)
    (ex : Bool) (mb : Option Int) (inc : Int) (hinc : 1 ≤ inc) :
    ∃ L, (if c then
            (build_missing_segment st ed bt ex mb inc).map
              (fun seg => if 0 < seg.count then [seg] else [])
          else some []) = some L ∧
      L.map segProj = (if c ∧ st ≤ ed then [(st, ed, bt)] else []) ∧
      ∀ sg ∈ L, SegOk sg := by
  by_cases hc : c
  · obtain ⟨seg, hsegeq, h1, h2, h3, hiff, hsok, _⟩ :=
      build_missing_segment_spec st ed bt ex mb inc hinc
    by_cases hcnt : 0 < seg.count
    · refine ⟨[seg], by simp [hc, hsegeq, hcnt], ?_, ?_⟩
      · have hle : st ≤ ed := hiff.mp hcnt
        simp [hc, hle, segProj, h1, h2, h3]
      · intro sg hsg
        rcases List.mem_singleton.mp hsg with h
        subst h; exact hsok
    · refine ⟨[], by simp [hc, hsegeq, hcnt], ?_, by simp⟩
      have hle : ¬ st ≤ ed := fun h => hcnt (hiff.mpr h)
      simp [hc, hle]
  · exact ⟨[], by simp [hc], by simp [hc], by simp⟩

theorem seqStartOf_eq_spec (s mb : Option Int) (a : Int)
    (hmb : ∀ m, mb = some m → 0 < m) :
    seqStartOf s mb a = specStart s mb a := by
  cases s with
  | some v => rfl
  | none =>
    cases mb with
    | none => rfl
    | some m =>
      have hm : 0 < m := hmb m rfl
      simp only [seqStartOf, specStart]
      rw [if_pos (by omega : m ≠ 0)]

theorem seqEndOf_eq_spec (e mb : Option Int) (a : Int)
    (hmb : ∀ m, mb = some m → 0 < m) :
    seqEndOf e mb a = specEnd e mb a := by
  cases e with
  | some v => rfl
  | none =>
    cases mb with
    | none => rfl
    | some m =>
      have hm : 0 < m := hmb m rfl
      simp only [seqEndOf, specEnd]
      rw [if_pos (by omega : m ≠ 0)]

theorem segProj_fillSeg (rci : List RealCov) (sg : Segment) :
    segProj (fillSeg rci sg) = segProj sg := rfl

theorem SegOk_fillSeg (rci : List RealCov) (sg : Segment) (h : SegOk sg) :
    SegOk (fillSeg rci sg) := by
  obtain ⟨hcnt, hpad⟩ := h
  constructor
  · simp [fillSeg, hcnt]
  · intro mi hmi
    simp only [fillSeg, List.mem_map] at hmi
    obtain ⟨mi0, hmi0, hmi0eq⟩ := hmi
    subst hmi0eq
    simpa [fillSeg] using hpad mi0 hmi0

theorem fillSeg_props (rci : List RealCov) (sg : Segment) :
    ∀ mi ∈ (fillSeg rci sg).missing_items,
      (mi.pfx, mi.sfx) = find_closest_prefix_suffix mi.val rci := by
  intro mi hmi
  simp only [fillSeg, List.mem_map] at hmi
  obtain ⟨mi0, _, hmi0eq⟩ := hmi
  subst hmi0eq
  rfl

theorem detect_spec (g : Group) (s e mb : Option Int) (inc : Int) (ex : Bool)
    (hinc : 1 ≤ inc) (hmb : ∀ m, mb = some m → 0 < m)
    (hobs : covSort (g.picks.flatMap Pick.coverage) ≠ []) :
    ∃ r, detect_breaks_in_group g s e mb inc ex = some r ∧
      r.segments.map segProj =
        runsSpec (specStart s mb ((covSort (g.picks.flatMap Pick.coverage)).headD 0))
                 (specEnd e mb ((covSort (g.picks.flatMap Pick.coverage)).getLastD 0))
                 inc (covSort (g.picks.flatMap Pick.coverage)) ∧
      ∀ sg ∈ r.segments, SegOk sg ∧
        ∀ mi ∈ sg.missing_items,
          (mi.pfx, mi.sfx) = find_closest_prefix_suffix mi.val (realCovItems g.picks) := by
  have hpicks : g.picks ≠ [] := by
    intro h
    apply hobs
    rw [h]
    rfl
  obtain ⟨L, hL, hLproj, hLok⟩ :=
    guardSeg_spec
      (seqStartOf s mb ((covSort (g.picks.flatMap Pick.coverage)).headD 0)
        < (covSort (g.picks.flatMap Pick.coverage)).headD 0)
      (seqStartOf s mb ((covSort (g.picks.flatMap Pick.coverage)).headD 0))
      ((covSort (g.picks.flatMap Pick.coverage)).headD 0 - inc)
      "leading" ex mb inc hinc
  obtain ⟨I, hI, hIproj, hIok⟩ :=
    internalSegs_spec ex mb inc hinc (covSort (g.picks.flatMap Pick.coverage))
  obtain ⟨T, hT, hTproj, hTok⟩ :=
    guardSeg_spec
      (seqEndOf e mb ((covSort (g.picks.flatMap Pick.coverage)).getLastD 0)
        > (covSort (g.picks.flatMap Pick.coverage)).getLastD 0)
      ((covSort (g.picks.flatMap Pick.coverage)).getLastD 0 + inc)
      (seqEndOf e mb ((covSort (g.picks.flatMap Pick.coverage)).getLastD 0))
      "trailing" ex mb inc hinc
  rw [detect_breaks_in_group]
  simp only [if_neg hpicks, if_neg hobs]
  rw [hL, hI, hT]
  simp only [Option.some_bind]
  refine ⟨_, rfl, ?_, ?_⟩
  · rw [List.map_map]
    have hcomp : segProj ∘ fillSeg (realCovItems g.picks) = segProj := by
      funext sg
      exact segProj_fillSeg _ sg
    rw [hcomp, List.map_append, List.map_append, hLproj, hIproj, hTproj]
    rw [seqStartOf_eq_spec s mb _ hmb, seqEndOf_eq_spec e mb _ hmb]
    simp only [runsSpec, gt_iff_lt]
  · intro sg hsg
    simp only [List.mem_map] at hsg
    obtain ⟨sg0, hsg0, hfill⟩ := hsg
    subst hfill
    have hok : SegOk sg0 := by
      rcases List.mem_append.mp hsg0 with h | hT0
      · rcases List.mem_append.mp h with hL0 | hI0
        · exact hLok sg0 hL0
        · exact hIok sg0 hI0
      · exact hTok sg0 hT0
    exact ⟨SegOk_fillSeg _ _ hok, fillSeg_props _ sg0⟩

theorem detect_isSome (g : Group) (s e mb : Option Int) (inc : Int) (ex : Bool)
    (hinc : 1 ≤ inc) :
    (detect_breaks_in_group g s e mb inc ex).isSome := by
  by_cases hpicks : g.picks = []
  · simp [detect_breaks_in_group, hpicks]
  · by_cases hso : covSort (g.picks.flatMap Pick.coverage) = []
    · simp [detect_breaks_in_group, hpicks, hso]
    · obtain ⟨L, hL, _, _⟩ :=
        guardSeg_spec
          (seqStartOf s mb ((covSort (g.picks.flatMap Pick.coverage)).headD 0)
            < (covSort (g.picks.flatMap Pick.coverage)).headD 0)
          (seqStartOf s mb ((covSort (g.picks.flatMap Pick.coverage)).headD 0))
          ((covSort (g.picks.flatMap Pick.coverage)).headD 0 - inc)
          "leading" ex mb inc hinc
      obtain ⟨I, hI, _, _⟩ :=
        internalSegs_spec ex mb inc hinc (covSort (g.picks.flatMap Pick.coverage))
      obtain ⟨T, hT, _, _⟩ :=
        guardSeg_spec
          (seqEndOf e mb ((covSort (g.picks.flatMap Pick.coverage)).getLastD 0)
            > (covSort (g.picks.flatMap Pick.coverage)).getLastD 0)
          ((covSort (g.picks.flatMap Pick.coverage)).getLastD 0 + inc)
          (seqEndOf e mb ((covSort (g.picks.flatMap Pick.coverage)).getLastD 0))
          "trailing" ex mb inc hinc
      rw [detect_breaks_in_group]
      simp only [if_neg hpicks, if_neg hso]
      rw [hL, hI, hT]
      simp

theorem leftArgminNE_min (val : Int) :
    ∀ (l : List RealCov) (a : RealCov),
      (leftArgminNE val a l).2 = diffTo val (leftArgminNE val a l).1 ∧
      (leftArgminNE val a l).1 ∈ a :: l ∧
      (leftArgminNE val a l).2 ≤ diffTo val a ∧
      ∀ x ∈ l, (leftArgminNE val a l).2 ≤ diffTo val x := by
  intro l
  induction l with
  | nil =>
    intro a
    simp [leftArgminNE]
  | cons rc rest ih =>
    intro a
    obtain ⟨hdiff, hmem, hha, hall⟩ := ih rc
    by_cases hle : diffTo val a ≤ (leftArgminNE val rc rest).2
    · have hgoal : leftArgminNE val a (rc :: rest) = (a, diffTo val a) := by
        simp only [leftArgminNE, if_pos hle]
      rw [hgoal]
      refine ⟨rfl, by simp, le_refl _, ?_⟩
      intro x hx
      rcases List.mem_cons.mp hx with h | h
      · subst h; omega
      · exact le_trans hle (hall x h)
    · have hgoal : leftArgminNE val a (rc :: rest) = leftArgminNE val rc rest := by
        simp only [leftArgminNE, if_neg hle]
      rw [hgoal]
      refine ⟨hdiff, ?_, by omega, ?_⟩
      · rcases List.mem_cons.mp hmem with h | h
        · rw [h]; simp
        · exact List.mem_cons_of_mem _ (List.mem_cons_of_mem _ h)
      · intro x hx
        rcases List.mem_cons.mp hx with h | h
        · subst h; exact hha
        · exact hall x h

theorem fcLoop_eq (val : Int) :
    ∀ (l : List RealCov) (b : RealCov),
      fcLoop val l (some (b, diffTo val b)) = some (leftArgminNE val b l) := by
  intro l
  induction l with
  | nil =>
    intro b
    simp [fcLoop, leftArgminNE]
  | cons rc rest ih =>
    intro b
    have hrcmin := leftArgminNE_min val rest rc
    simp only [fcLoop, diffTo]
    by_cases hd : (rc.val - val).natAbs < (b.val - val).natAbs
    · rw [if_pos hd]
      have hrc := ih rc
      simp only [diffTo] at hrc
      rw [hrc]
      have hne : ¬ diffTo val b ≤ (leftArgminNE val rc rest).2 := by
        simp only [diffTo] at *
        omega
      simp only [leftArgminNE, if_neg hne]
    · rw [if_neg hd]
      have hb := ih b
      simp only [diffTo] at hb
      rw [hb]
      cases rest with
      | nil =>
        have hle : diffTo val b ≤ diffTo val rc := by simp only [diffTo]; omega
        simp only [leftArgminNE, if_pos hle]
      | cons r2 rr =>
        have hr2min := leftArgminNE_min val rr r2
        by_cases h2 : diffTo val rc ≤ (leftArgminNE val r2 rr).2
        · have hba : diffTo val b ≤ diffTo val rc := by simp only [diffTo]; omega
          have hb2 : diffTo val b ≤ (leftArgminNE val r2 rr).2 := le_trans hba h2
          simp only [leftArgminNE, if_pos h2, if_pos hba, if_pos hb2]
        · simp only [leftArgminNE, if_neg h2]

theorem find_closest_eq_leftArgmin (val : Int) :
    ∀ l : List RealCov,
      find_closest_prefix_suffix val l =
        (match leftArgmin val l with
         | some (b, _) => (b.pfx, b.sfx)
         | none => ("???_", ".xxx")) := by
  intro l
  cases l with
  | nil => rfl
  | cons rc rest =>
    have h := fcLoop_eq val rest rc
    simp only [diffTo] at h
    simp only [find_closest_prefix_suffix, fcLoop, h, leftArgmin]

theorem specRuns_cons (t : Int) (p : Pick) :
    ∀ ps : List Pick,
      specRuns t (p :: ps) =
        (p :: (splitFrom t (repOf p) ps).1) :: (splitFrom t (repOf p) ps).2 := by
  intro ps
  induction ps generalizing p with
  | nil => simp [specRuns, splitFrom]
  | cons q rest ih =>
    by_cases hgap : repOf q - repOf p > t
    · simp only [specRuns, if_pos hgap, splitFrom]
    · simp only [specRuns, if_neg hgap, splitFrom]
      rw [ih q]

theorem subgroupsLoop_spec (dkey atype : String) (t : Int) :
    ∀ (ps : List Pick) (idx : Nat) (citems : List Pick) (v : Int),
      (subgroupsLoop dkey atype t idx citems v ps).map Group.picks =
        (citems ++ (splitFrom t v ps).1) :: (splitFrom t v ps).2 := by
  intro ps
  induction ps with
  | nil =>
    intro idx citems v
    simp [subgroupsLoop, splitFrom, mkDirGroup]
  | cons p ps ih =>
    intro idx citems v
    by_cases hgap : repOf p - v > t
    · simp only [subgroupsLoop, if_pos hgap, List.map_cons, ih, splitFrom]
      simp [mkDirGroup, specRuns_cons]
    · simp only [subgroupsLoop, if_neg hgap, ih, splitFrom]
      simp [List.append_assoc]

theorem build_subgroups_split (dkey atype : String) (t : Int) (ht : t ≠ 0)
    (picks : List Pick) :
    (build_subgroups_in_dir dkey picks (some t) atype).map Group.picks =
      specRuns t picks := by
  cases picks with
  | nil =>
    simp [build_subgroups_in_dir, ht, specRuns]
  | cons p ps =>
    simp only [build_subgroups_in_dir, Option.getD_some, if_neg ht]
    rw [subgroupsLoop_spec, specRuns_cons]
    simp

theorem build_subgroups_none (dkey atype : String) (picks : List Pick) :
    build_subgroups_in_dir dkey picks none atype =
      [⟨dkey ++ "__group0", some dkey, compute_group_label_for_picks picks,
        atype, picks⟩] := rfl

theorem flatLoop_nosplit (atype : String) :
    ∀ (xs : List (String × Item × List Int)) (idx : Nat)
      (citems : List (String × Item × List Int)) (v : Int),
      flatLoop atype 0 idx citems v xs = [mkFlatGroup idx (citems ++ xs) atype] := by
  intro xs
  induction xs with
  | nil => intro idx citems v; simp [flatLoop]
  | cons x xs ih =>
    intro idx citems v
    have hcond : ¬ ((0 : Int) ≠ 0 ∧ x.2.2.headD 0 - v > 0) := by simp
    simp only [flatLoop, if_neg hcond, ih]
    simp [List.append_assoc]

theorem insertFlat_ne_nil (x : String × Item × List Int) :
    ∀ l, insertFlat x l ≠ [] := by
  intro l
  cases l with
  | nil => simp [insertFlat]
  | cons y ys =>
    simp only [insertFlat]
    split <;> simp

theorem sortFlat_ne_nil (flat : List (String × Item × List Int))
    (h : flat ≠ []) : sortFlat flat ≠ [] := by
  cases flat with
  | nil => exact absurd rfl h
  | cons x xs => exact insertFlat_ne_nil x _

theorem build_groups_from_flat_none (atype : String)
    (flat : List (String × Item × List Int)) (hne : sortFlat flat ≠ []) :
    ∃ x xs, sortFlat flat = x :: xs ∧
      build_groups_from_flat flat none atype =
        [mkFlatGroup 0 (x :: xs) atype] := by
  cases hms : sortFlat flat with
  | nil => exact absurd hms hne
  | cons x xs =>
    refine ⟨x, xs, rfl, ?_⟩
    simp only [build_groups_from_flat, hms, Option.getD_none]
    rw [flatLoop_nosplit]
    rfl

theorem mem_rangeList (lo hi v : Int) :
    v ∈ (List.range (hi + 1 - lo).toNat).map (fun i => lo + Int.ofNat i) ↔
      lo ≤ v ∧ v ≤ hi := by
  constructor
  · intro h
    rcases List.mem_map.mp h with ⟨i, hir, heq⟩
    rw [List.mem_range] at hir
    rw [Int.ofNat_eq_coe] at heq
    omega
  · intro h
    apply List.mem_map.mpr
    refine ⟨(v - lo).toNat, ?_, ?_⟩
    · rw [List.mem_range]
      omega
    · rw [Int.ofNat_eq_coe]
      omega

theorem mem_rangeFold (v : Int) :
    ∀ (ms : List MatchRes) (acc : List Int),
      v ∈ ms.foldl
        (fun acc m =>
          match m with
          | MatchRes.tup (a :: b :: _) =>
            let st := parseDigits a
            let ed := parseDigits b
            let lo := min st ed
            let hi := max st ed
            acc ++ (List.range (hi + 1 - lo).toNat).map (fun i => lo + Int.ofNat i)
          | _ => acc)
        acc ↔
      v ∈ acc ∨ ∃ a b gs, MatchRes.tup (a :: b :: gs) ∈ ms ∧
        min (parseDigits a) (parseDigits b) ≤ v ∧
        v ≤ max (parseDigits a) (parseDigits b) := by
  intro ms
  induction ms with
  | nil => simp
  | cons m rest ih =>
    intro acc
    cases m with
    | str s =>
      simp only [List.foldl_cons, ih]
      constructor
      · rintro (h | ⟨a, b, gs, hm, h1, h2⟩)
        · exact Or.inl h
        · exact Or.inr ⟨a, b, gs, List.mem_cons_of_mem _ hm, h1, h2⟩
      · rintro (h | ⟨a, b, gs, hm, h1, h2⟩)
        · exact Or.inl h
        · rcases List.mem_cons.mp hm with heq | hmem
          · exact absurd heq (by simp)
          · exact Or.inr ⟨a, b, gs, hmem, h1, h2⟩
    | tup gs0 =>
      cases gs0 with
      | nil =>
        simp only [List.foldl_cons, ih]
        constructor
        · rintro (h | ⟨a, b, gs, hm, h1, h2⟩)
          · exact Or.inl h
          · exact Or.inr ⟨a, b, gs, List.mem_cons_of_mem _ hm, h1, h2⟩
        · rintro (h | ⟨a, b, gs, hm, h1, h2⟩)
          · exact Or.inl h
          · rcases List.mem_cons.mp hm with heq | hmem
            · exact absurd heq (by simp)
            · exact Or.inr ⟨a, b, gs, hmem, h1, h2⟩
      | cons a0 gs1 =>
        cases gs1 with
        | nil =>
          simp only [List.foldl_cons, ih]
          constructor
          · rintro (h | ⟨a, b, gs, hm, h1, h2⟩)
            · exact Or.inl h
            · exact Or.inr ⟨a, b, gs, List.mem_cons_of_mem _ hm, h1, h2⟩
          · rintro (h | ⟨a, b, gs, hm, h1, h2⟩)
            · exact Or.inl h
            · rcases List.mem_cons.mp hm with heq | hmem
              · exact absurd heq (by simp)
              · exact Or.inr ⟨a, b, gs, hmem, h1, h2⟩
        | cons b0 gs2 =>
          simp only [List.foldl_cons, ih, List.mem_append, mem_rangeList]
          constructor
          · rintro ((h | h) | ⟨a, b, gs, hm, h1, h2⟩)
            · exact Or.inl h
            · exact Or.inr ⟨a0, b0, gs2, by simp, h.1, h.2⟩
            · exact Or.inr ⟨a, b, gs, List.mem_cons_of_mem _ hm, h1, h2⟩
          · rintro (h | ⟨a, b, gs, hm, h1, h2⟩)
            · exact Or.inl (Or.inl h)
            · rcases List.mem_cons.mp hm with heq | hmem
              · rw [MatchRes.tup.injEq] at heq
                injection heq with ha htl
                injection htl with hb _
                subst ha
                subst hb
                exact Or.inl (Or.inr ⟨h1, h2⟩)
              · exact Or.inr ⟨a, b, gs, hmem, h1, h2⟩

theorem mem_coverage_for_block (v val : Int) (findall : String → List MatchRes)
    (nm : String) :
    v ∈ coverage_for_block true findall nm val ↔
      v = val ∨ ∃ a b gs, MatchRes.tup (a :: b :: gs) ∈ findall nm ∧
        min (parseDigits a) (parseDigits b) ≤ v ∧
        v ≤ max (parseDigits a) (parseDigits b) := by
  simp only [coverage_for_block, if_pos trivial, mem_covSort, if_true]
  rw [mem_rangeFold]
  simp

theorem coverage_for_block_self (val : Int) (mr : Bool)
    (findall : String → List MatchRes) (nm : String) :
    val ∈ coverage_for_block mr findall nm val := by
  cases mr with
  | false => simp [coverage_for_block, mem_covSort]
  | true =>
    rw [mem_coverage_for_block]
    exact Or.inl rfl

theorem coverage_for_block_false (val : Int)
    (findall : String → List MatchRes) (nm : String) :
    coverage_for_block false findall nm val = [val] := rfl

theorem foldl_max_spec (l : List Int) (a : Int) :
    l.foldl max a ∈ a :: l ∧ a ≤ l.foldl max a ∧ ∀ x ∈ l, x ≤ l.foldl max a := by
  induction l generalizing a with
  | nil => simp
  | cons y ys ih =>
    obtain ⟨hmem, hle, hall⟩ := ih (max a y)
    simp only [List.foldl_cons]
    refine ⟨?_, le_trans (le_max_left a y) hle, ?_⟩
    · rcases List.mem_cons.mp hmem with h | h
      · rw [h]
        rcases max_choice a y with hm | hm <;> rw [hm] <;> simp
      · simp [h]
    · intro x hx
      rcases List.mem_cons.mp hx with h | h
      · subst h; exact le_trans (le_max_right a x) hle
      · exact hall x h

theorem parse_coverage_nonempty (it : Item) (pol : String) (mr : Bool)
    (findall : String → List MatchRes) :
    ∀ c ∈ parse_coverage_list it pol mr findall, c ≠ [] := by
  intro c hc
  simp only [parse_coverage_list] at hc
  split at hc
  · simp at hc
  · split at hc
    · split at hc
      · simp at hc
      · rw [List.mem_singleton] at hc
        subst hc
        assumption
    · split at hc
      · split at hc
        · simp at hc
        · rw [List.mem_singleton] at hc
          subst hc
          assumption
      · split at hc
        · rcases List.mem_filterMap.mp hc with ⟨b, _, hb⟩
          split at hb
          · simp at hb
          · rw [Option.some_inj] at hb
            subst hb
            assumption
        · rcases List.mem_filterMap.mp hc with ⟨b, _, hb⟩
          split at hb
          · simp at hb
          · rw [Option.some_inj] at hb
            subst hb
            assumption

theorem rangeFold_no_tup :
    ∀ (ms : List MatchRes) (acc : List Int),
      (∀ m ∈ ms, isTupGe2 m = false) →
      ms.foldl
        (fun acc m =>
          match m with
          | MatchRes.tup (a :: b :: _) =>
            let st := parseDigits a
            let ed := parseDigits b
            let lo := min st ed
            let hi := max st ed
            acc ++ (List.range (hi + 1 - lo).toNat).map (fun i => lo + Int.ofNat i)
          | _ => acc)
        acc = acc := by
  intro ms
  induction ms with
  | nil => intro acc _; rfl
  | cons m rest ih =>
    intro acc h
    have hm := h m (by simp)
    have hrest : ∀ x ∈ rest, isTupGe2 x = false := fun x hx => h x (by simp [hx])
    cases m with
    | str s => simpa using ih acc hrest
    | tup gs =>
      cases gs with
      | nil => simpa using ih acc hrest
      | cons a gs1 =>
        cases gs1 with
        | nil => simpa using ih acc hrest
        | cons b gs2 => simp [isTupGe2] at hm

/-! Claim theorems. -/

/-- Claim C1: for every group, detect_breaks_in_group computes the expected
bounds (explicit start, else the actual minimum snapped down to the modulus
boundary; explicit end, else the actual maximum snapped up to one below the
next multiple) and emits exactly the leading run, the internal run of every
adjacent observed pair with a gap wider than the increment, and the trailing
run, discarding runs whose end is below their start; in particular with
modulus boundary 100 and observed values 105 and 110 the segments are
exactly leading 100..104, internal 106..109, trailing 111..199. -/
theorem detect_gaps_bounds_and_runs :
    (∀ (g : Group) (s e mb : Option Int) (inc : Int) (ex : Bool),
      1 ≤ inc → (∀ m, mb = some m → 0 < m) →
      covSort (g.picks.flatMap Pick.coverage) ≠ [] →
      (detect_breaks_in_group g s e mb inc ex).map (fun r => r.segments.map segProj)
        = some (runsSpec
            (specStart s mb ((covSort (g.picks.flatMap Pick.coverage)).headD 0))
            (specEnd e mb ((covSort (g.picks.flatMap Pick.coverage)).getLastD 0))
            inc (covSort (g.picks.flatMap Pick.coverage)))) ∧
    (detect_breaks_in_group gBoundary none none (some 100) 1 false).map
        (fun r => r.segments.map segProj)
      = some [(100, 104, "leading"), (106, 109, "internal"), (111, 199, "trailing")] := by
  constructor
  · intro g s e mb inc ex hinc hmb hobs
    obtain ⟨r, hr, hproj, _⟩ := detect_spec g s e mb inc ex hinc hmb hobs
    rw [hr, Option.map_some', hproj]
  · decide

/-- Claim C1 witness: the general bounds-and-runs theorem applied to the
boundary-scenario group with modulus boundary 100 and increment 1. -/
theorem detect_gaps_bounds_and_runs_witness :
    (detect_breaks_in_group gBoundary none none (some 100) 1 false).map
        (fun r => r.segments.map segProj)
      = some (runsSpec
          (specStart none (some 100) ((covSort (gBoundary.picks.flatMap Pick.coverage)).headD 0))
          (specEnd none (some 100) ((covSort (gBoundary.picks.flatMap Pick.coverage)).getLastD 0))
          1 (covSort (gBoundary.picks.flatMap Pick.coverage))) :=
  detect_gaps_bounds_and_runs.1 gBoundary none none (some 100) 1 false
    (by decide)
    (by intro m hm; cases hm; decide)
    (by decide)

/-- Claim C2 counterexample: no invalid-configuration check exists.  With
explicit start 10 greater than explicit end 5 the detector still runs and
produces a result, and with increment 0 the detector fails to terminate
(modelled as none) instead of rejecting the configuration up front. -/
theorem invalid_config_not_rejected_cex :
    (detect_breaks_in_group gOne (some 10) (some 5) none 1 false).isSome = true ∧
    detect_breaks_in_group gBoundary none none none 0 false = none := by
  constructor
  · decide
  · decide

/-- Claim C2 amended: invalid configurations (increment ≤ 0, modulus
boundary ≤ 0, explicit start greater than explicit end) are not detected
anywhere: with any start greater than end and increment 1 the detector runs
to completion and produces a result, while an increment of 0 can make the
missing-value loop diverge rather than raise. -/
theorem invalid_config_processing_proceeds :
    (∀ (g : Group) (s e : Int) (mb : Option Int) (ex : Bool), e < s →
      (detect_breaks_in_group g (some s) (some e) mb 1 ex).isSome) ∧
    detect_breaks_in_group gBoundary none none none 0 false = none := by
  constructor
  · intro g s e mb ex _
    exact detect_isSome g (some s) (some e) mb 1 ex (by omega)
  · decide

/-- Claim C2 witness: the amended theorem applied to a concrete group with
explicit start 10 above explicit end 5. -/
theorem invalid_config_processing_proceeds_witness :
    (detect_breaks_in_group gOne (some 10) (some 5) none 1 false).isSome :=
  invalid_config_processing_proceeds.1 gOne 10 5 none false (by decide)

/-- Claim C3: with no explicit bounds and no modulus boundary the emitted
segments are exactly the internal gaps of the observed values; a contiguous
run 1..10 with increment 1 yields zero segments, and a single observed value
yields zero segments. -/
theorem detect_internal_only_no_bounds :
    (∀ (g : Group) (inc : Int) (ex : Bool),
      1 ≤ inc → covSort (g.picks.flatMap Pick.coverage) ≠ [] →
      (detect_breaks_in_group g none none none inc ex).map
          (fun r => r.segments.map segProj)
        = some (internalRunsSpec inc (covSort (g.picks.flatMap Pick.coverage)))) ∧
    (detect_breaks_in_group gRun none none none 1 false).map
        (fun r => r.segments.length) = some 0 ∧
    (detect_breaks_in_group gOne none none none 1 false).map
        (fun r => r.segments.length) = some 0 := by
  refine ⟨?_, by decide, by decide⟩
  intro g inc ex hinc hobs
  obtain ⟨r, hr, hproj, _⟩ :=
    detect_spec g none none none inc ex hinc (by intro m hm; cases hm) hobs
  rw [hr, Option.map_some', hproj]
  simp [runsSpec, specStart, specEnd]

/-- Claim C3 witness: the internal-gaps-only theorem applied to the group
with the single observed value 7. -/
theorem detect_internal_only_no_bounds_witness :
    (detect_breaks_in_group gOne none none none 1 false).map
        (fun r => r.segments.map segProj)
      = some (internalRunsSpec 1 (covSort (gOne.picks.flatMap Pick.coverage))) :=
  detect_internal_only_no_bounds.1 gOne 1 false (by decide) (by decide)

/-- Claim C4: the reconstructed prefix and suffix of each missing value are
those of the real coverage entry at minimum absolute distance, earliest
entry on ties; each missing item is zero-padded to the width of its segment
end; and the img scenario yields one internal segment 3..4 with the
reconstructed names img_003.png and img_004.png. -/
theorem closest_reconstruction_and_padding :
    (∀ (val : Int) (l : List RealCov) (b : RealCov) (d : Nat),
      leftArgmin val l = some (b, d) →
      find_closest_prefix_suffix val l = (b.pfx, b.sfx) ∧
      d = diffTo val b ∧ b ∈ l ∧ ∀ x ∈ l, d ≤ diffTo val x) ∧
    (∀ (g : Group) (s e mb : Option Int) (inc : Int) (ex : Bool) (r : BreakResult),
      1 ≤ inc → (∀ m, mb = some m → 0 < m) →
      covSort (g.picks.flatMap Pick.coverage) ≠ [] →
      detect_breaks_in_group g s e mb inc ex = some r →
      ∀ sg ∈ r.segments, SegOk sg ∧ ∀ mi ∈ sg.missing_items,
        (mi.pfx, mi.sfx) = find_closest_prefix_suffix mi.val (realCovItems g.picks)) ∧
    (detect_breaks_in_group gImg none none none 1 false).map
        (fun r => r.segments.map fun sg => (sg.start_val, sg.end_val, sg.count,
          sg.missing_items.map fun mi => mi.pfx ++ mi.padded ++ mi.sfx))
      = some [(3, 4, 2, ["img_003.png", "img_004.png"])] := by
  refine ⟨?_, ?_, by decide⟩
  · intro val l b d h
    cases l with
    | nil => simp [leftArgmin] at h
    | cons rc rest =>
      simp only [leftArgmin, Option.some_inj] at h
      obtain ⟨hmin1, hmin2, hmin3, hmin4⟩ := leftArgminNE_min val rest rc
      rw [h] at hmin1 hmin2 hmin3 hmin4
      refine ⟨?_, ?_, ?_, ?_⟩
      · rw [find_closest_eq_leftArgmin]
        simp [leftArgmin, h]
      · simpa using hmin1
      · simpa using hmin2
      · intro x hx
        rcases List.mem_cons.mp hx with hh | hh
        · subst hh
          simpa using hmin3
        · simpa using hmin4 x hh
  · intro g s e mb inc ex r hinc hmb hobs hdet
    obtain ⟨r', hr', _, hprops⟩ := detect_spec g s e mb inc ex hinc hmb hobs
    rw [hdet, Option.some_inj] at hr'
    rw [hr']
    exact hprops

/-- Claim C4 witness: the nearest-entry selection applied to missing value 3
of the img scenario, whose nearest real entry is the one of value 2. -/
theorem closest_reconstruction_and_padding_witness :
    find_closest_prefix_suffix 3 (realCovItems gImg.picks) = ("img_00", ".png") ∧
    1 = diffTo 3 ⟨2, "img_00", ".png", false, 0⟩ ∧
    (⟨2, "img_00", ".png", false, 0⟩ : RealCov) ∈ realCovItems gImg.picks ∧
    ∀ x ∈ realCovItems gImg.picks, 1 ≤ diffTo 3 x :=
  closest_reconstruction_and_padding.1 3 (realCovItems gImg.picks)
    ⟨2, "img_00", ".png", false, 0⟩ 1 (by decide)

/-- Claim C5: per-directory picks are sorted by (representative value, name)
and split into a new group exactly where the gap between successive
representative values exceeds the threshold; values 1, 2, 50, 51 with
threshold 5 give exactly the groups with picks 1,2 and 50,51; with no
threshold a directory (or the cross-directory pool) forms exactly one
group. -/
theorem subgroup_split_spec :
    (∀ (dkey atype : String) (t : Int) (picks : List Pick), t ≠ 0 →
      (build_subgroups_in_dir dkey picks (some t) atype).map Group.picks
        = specRuns t picks) ∧
    (∀ (dkey atype : String) (picks : List Pick),
      build_subgroups_in_dir dkey picks none atype =
        [⟨dkey ++ "__group0", some dkey, compute_group_label_for_picks picks,
          atype, picks⟩]) ∧
    (∀ (atype : String) (flat : List (String × Item × List Int)),
      flat ≠ [] →
      (build_groups_from_flat flat none atype).length = 1) ∧
    (build_subgroups_in_dir "d" splitPicks (some 5) "files").map Group.picks
      = [[mkPick "f1" 1, mkPick "f2" 2], [mkPick "f50" 50, mkPick "f51" 51]] ∧
    (group_items_dir "d" [mkFileItem "f50", mkFileItem "f1", mkFileItem "f51",
        mkFileItem "f2"] (fun _ => true) "first" false defaultRangeFindall
        (some 5) "files").map (fun g => (g.group_id, g.picks.map repOf))
      = [("d__group0", [1, 2]), ("d__group1", [50, 51])] := by
  refine ⟨?_, ?_, ?_, by decide, by decide⟩
  · intro dkey atype t picks ht
    exact build_subgroups_split dkey atype t ht picks
  · intro dkey atype picks
    exact build_subgroups_none dkey atype picks
  · intro atype flat hne
    obtain ⟨x, xs, _, heq⟩ :=
      build_groups_from_flat_none atype flat (sortFlat_ne_nil flat hne)
    rw [heq]
    rfl

/-- Claim C5 witness: the threshold-splitting characterization applied to
the scenario picks with threshold 5. -/
theorem subgroup_split_spec_witness :
    (build_subgroups_in_dir "d" splitPicks (some 5) "files").map Group.picks
      = specRuns 5 splitPicks :=
  subgroup_split_spec.1 "d" "files" 5 splitPicks (by decide)

/-- Claim C6: with multi-range expansion enabled, a value belongs to the
coverage set of a seed exactly when it is the seed itself or lies between
the ordered pair of integers captured by some range-pattern match of the
full name; the item archive_100-103.zip under the first policy yields the
single coverage set 100,101,102,103. -/
theorem multi_range_coverage :
    (∀ (nm : String) (val v : Int) (findall : String → List MatchRes),
      v ∈ coverage_for_block true findall nm val ↔
        v = val ∨ ∃ a b gs, MatchRes.tup (a :: b :: gs) ∈ findall nm ∧
          min (parseDigits a) (parseDigits b) ≤ v ∧
          v ≤ max (parseDigits a) (parseDigits b)) ∧
    parse_coverage_list archiveItem "first" true defaultRangeFindall
      = [[100, 101, 102, 103]] := by
  refine ⟨?_, by decide⟩
  intro nm val v findall
  exact mem_coverage_for_block v val findall nm

/-- Claim C7: under the largest block policy an item with at least one digit
run yields exactly one coverage set, seeded by the maximum parsed digit run;
and with multi-range disabled that set is exactly the singleton of the
seed. -/
theorem largest_policy_coverage (it : Item) (mr : Bool)
    (findall : String → List MatchRes) (h : digitRuns it.name ≠ []) :
    parse_coverage_list it "largest" mr findall
      = [coverage_for_block mr findall it.name (maxBlockOf it)] ∧
    maxBlockOf it ∈ (digitRuns it.name).map parseDigits ∧
    (∀ x ∈ (digitRuns it.name).map parseDigits, x ≤ maxBlockOf it) ∧
    maxBlockOf it ∈ coverage_for_block mr findall it.name (maxBlockOf it) ∧
    (mr = false →
      parse_coverage_list it "largest" mr findall = [[maxBlockOf it]]) := by
  have hself := coverage_for_block_self (maxBlockOf it) mr findall it.name
  have hcne : coverage_for_block mr findall it.name (maxBlockOf it) ≠ [] :=
    List.ne_nil_of_mem hself
  have hne : ("largest" : String) ≠ "first" := by decide
  have hcne' : coverage_for_block mr findall it.name
      (List.foldl max ((List.map parseDigits (digitRuns it.name)).headD 0)
        (List.map parseDigits (digitRuns it.name))) ≠ [] := by
    simpa [maxBlockOf] using hcne
  have hparse : parse_coverage_list it "largest" mr findall
      = [coverage_for_block mr findall it.name (maxBlockOf it)] := by
    simp only [parse_coverage_list, if_neg h, if_neg hne, if_true,
      maxBlockOf, if_neg hcne']
  refine ⟨hparse, ?_, ?_, hself, ?_⟩
  · obtain ⟨hmem, _, _⟩ :=
      foldl_max_spec ((digitRuns it.name).map parseDigits)
        (((digitRuns it.name).map parseDigits).headD 0)
    cases hbs : (digitRuns it.name).map parseDigits with
    | nil => exact absurd hbs (by simpa using h)
    | cons b rest =>
      rw [hbs] at hmem
      simp only [List.headD_cons] at hmem
      simp only [maxBlockOf, hbs, List.headD_cons]
      rcases List.mem_cons.mp hmem with hh | hh
      · rw [hh]
        simp
      · exact hh
  · intro x hx
    obtain ⟨_, _, hall⟩ :=
      foldl_max_spec ((digitRuns it.name).map parseDigits)
        (((digitRuns it.name).map parseDigits).headD 0)
    exact hall x hx
  · intro hmr
    subst hmr
    rw [hparse, coverage_for_block_false]

/-- Claim C7 witness: the largest block policy applied to the archive item
with multi-range disabled; the maximum digit run is 103. -/
theorem largest_policy_coverage_witness :
    parse_coverage_list archiveItem "largest" false defaultRangeFindall
      = [coverage_for_block false defaultRangeFindall archiveItem.name
          (maxBlockOf archiveItem)] ∧
    maxBlockOf archiveItem ∈ (digitRuns archiveItem.name).map parseDigits ∧
    (∀ x ∈ (digitRuns archiveItem.name).map parseDigits,
      x ≤ maxBlockOf archiveItem) ∧
    maxBlockOf archiveItem ∈ coverage_for_block false defaultRangeFindall
      archiveItem.name (maxBlockOf archiveItem) ∧
    (false = false →
      parse_coverage_list archiveItem "largest" false defaultRangeFindall
        = [[maxBlockOf archiveItem]]) :=
  largest_policy_coverage archiveItem false defaultRangeFindall (by decide)

/-- Claim C8: the block policies all and multi-block-advanced are observably
identical: they produce the same coverage-set sequence for every item and
extractor configuration. -/
theorem policy_all_eq_advanced (it : Item) (mr : Bool)
    (findall : String → List MatchRes) :
    parse_coverage_list it "all" mr findall
      = parse_coverage_list it "multi-block-advanced" mr findall := rfl

/-- Claim C9 counterexample: a range pattern capturing only one group is
never reported: the scenario item is still processed and its matches,
being bare strings rather than two-group tuples, are silently ignored,
leaving only the bare seeds in coverage. -/
theorem malformed_pattern_not_detected_cex :
    oneGroupRangeFindall archiveItem.name = [MatchRes.str "100"] ∧
    parse_coverage_list archiveItem "first" true oneGroupRangeFindall
      = [[100]] := by
  constructor
  · decide
  · decide

/-- Claim C9 amended: a malformed range pattern (fewer than two captured
groups per match) is not detected at setup or at any point; during per-item
processing every such match is silently skipped, so the coverage of each
seed is the bare seed singleton. -/
theorem malformed_pattern_silently_ignored (nm : String) (val : Int)
    (findall : String → List MatchRes)
    (h : ∀ m ∈ findall nm, isTupGe2 m = false) :
    coverage_for_block true findall nm val = [val] := by
  simp only [coverage_for_block, if_pos trivial, if_true]
  rw [rangeFold_no_tup (findall nm) [val] h]
  rfl

/-- Claim C9 witness: the silent-skip theorem applied to the archive item
under the one-group range pattern. -/
theorem malformed_pattern_silently_ignored_witness :
    coverage_for_block true oneGroupRangeFindall "archive_100-103.zip" 100
      = [100] :=
  malformed_pattern_silently_ignored "archive_100-103.zip" 100
    oneGroupRangeFindall (by decide)

/-- Claim C10: with a valid configuration (increment at least 1) extraction,
grouping and detection are total: detection always returns a result, every
coverage set produced by extraction is non-empty (so no indexing error can
occur downstream), and each built segment holds exactly count items, at
most one per value in its span. -/
theorem pipeline_total_for_valid_increment :
    (∀ (g : Group) (s e mb : Option Int) (inc : Int) (ex : Bool), 1 ≤ inc →
      (detect_breaks_in_group g s e mb inc ex).isSome) ∧
    (∀ (it : Item) (pol : String) (mr : Bool)
      (findall : String → List MatchRes) (c : List Int),
      c ∈ parse_coverage_list it pol mr findall → c ≠ []) ∧
    (∀ (st ed : Int) (bt : String) (ex : Bool) (mb : Option Int) (inc : Int)
      (seg : Segment), 1 ≤ inc →
      build_missing_segment st ed bt ex mb inc = some seg →
      seg.count = seg.missing_items.length ∧
      seg.missing_items.length ≤ (ed + 1 - st).toNat) := by
  refine ⟨?_, ?_, ?_⟩
  · intro g s e mb inc ex hinc
    exact detect_isSome g s e mb inc ex hinc
  · intro it pol mr findall c hc
    exact parse_coverage_nonempty it pol mr findall c hc
  · intro st ed bt ex mb inc seg hinc hbuild
    obtain ⟨seg', hseg', _, _, _, _, hok, hlen⟩ :=
      build_missing_segment_spec st ed bt ex mb inc hinc
    rw [hseg', Option.some_inj] at hbuild
    subst hbuild
    exact ⟨hok.1, hlen⟩

/-- Claim C10 witness: totality of detection applied to the boundary
scenario with increment 1. -/
theorem pipeline_total_for_valid_increment_witness :
    (detect_breaks_in_group gBoundary none none (some 100) 1 false).isSome :=
  pipeline_total_for_valid_increment.1 gBoundary none none (some 100) 1 false
    (by decide)

end PatternBreak
